import Mathlib

/-!
Shallow embedding of `src/main.py`, a polynomial curve-fitting demo built on
numpy.  Machine floats are modelled by exact real numbers; numpy 1-D arrays
are modelled by Lean lists (when their length is not statically known) or by
functions `Fin n → ℝ` (when it is); numpy 2-D arrays by `Matrix`.  Values
whose shape depends on broadcasting (the evaluator's input may be a scalar or
an array) are modelled by the inductive `NpVal`.
-/

namespace MLLib

open Matrix

/-- A numpy value as used by `polynomial`: either a 0-d scalar or a 1-d
array.  Python's `sum` starts from the integer `0`, which is a scalar. -/
inductive NpVal where
  | scalar : ℝ → NpVal
  | arr : List ℝ → NpVal

/-- numpy broadcasting addition, restricted to the scalar/1-d shapes used in
`main.py`.  Adding two arrays assumes equal length (a numpy precondition). -/
def npAdd : NpVal → NpVal → NpVal
  | .scalar a, .scalar b => .scalar (a + b)
  | .scalar a, .arr l => .arr (l.map fun b => a + b)
  | .arr l, .scalar b => .arr (l.map fun a => a + b)
  | .arr l, .arr m => .arr (List.zipWith (· + ·) l m)

/-- numpy broadcasting subtraction (same shapes as `npAdd`). -/
def npSub : NpVal → NpVal → NpVal
  | .scalar a, .scalar b => .scalar (a - b)
  | .scalar a, .arr l => .arr (l.map fun b => a - b)
  | .arr l, .scalar b => .arr (l.map fun a => a - b)
  | .arr l, .arr m => .arr (List.zipWith (· - ·) l m)

/-- numpy broadcasting multiplication (same shapes as `npAdd`). -/
def npMul : NpVal → NpVal → NpVal
  | .scalar a, .scalar b => .scalar (a * b)
  | .scalar a, .arr l => .arr (l.map fun b => a * b)
  | .arr l, .scalar b => .arr (l.map fun a => a * b)
  | .arr l, .arr m => .arr (List.zipWith (· * ·) l m)

/-- numpy elementwise power with a natural exponent, `x ** i`. -/
def npPow : NpVal → ℕ → NpVal
  | .scalar a, k => .scalar (a ^ k)
  | .arr l, k => .arr (l.map fun a => a ^ k)

/-- numpy `np.sum` on the shapes used in `main.py`. -/
def npSum : NpVal → ℝ
  | .scalar a => a
  | .arr l => l.sum

/-- Embedding of `polynomial(x, w)` from `src/main.py`:
`sum(w[i] * x**i for i in range(len(w)))`.  Python's `sum` is a left fold
starting from the scalar `0`; the index `i` only ranges over valid positions
of `w`, so the default in `getD` is never read. -/
def polynomial (x : NpVal) (w : List ℝ) : NpVal :=
  ((List.range w.length).map fun i => npMul (.scalar (w.getD i 0)) (npPow x i)).foldl
    npAdd (.scalar 0)

/-- Embedding of `mean_squared_error(y, y_pred)` from `src/main.py`:
`np.sum((y - y_pred)**2) / 2`. -/
noncomputable def mean_squared_error (y y_pred : NpVal) : ℝ :=
  npSum (npPow (npSub y y_pred) 2) / 2

/-- Embedding of `np.linspace(0, 1, n)` in exact arithmetic: for `n = 1`
numpy returns `[0.0]`; for `n ≥ 2` it returns `i / (n - 1)` for
`i = 0, …, n-1`, with the endpoint `1` included. -/
noncomputable def linspace01 (n : ℕ) : Fin n → ℝ :=
  fun i => if n = 1 then 0 else (i : ℝ) / ((n : ℝ) - 1)

/-- Embedding of `generate_noisy_sin_points(num_points, noise_level)` from
`src/main.py`.  The call `np.random.normal(0, noise_level, num_points)` draws
`num_points` independent Gaussians with mean `0` and standard deviation
`noise_level`; it is modelled by `noise_level * g i` where `g` is the stream
of standard-normal draws (numpy computes exactly `scale * standard_draw`, so
`noise_level = 0` yields exactly `0`). -/
noncomputable def generate_noisy_sin_points (num_points : ℕ) (noise_level : ℝ)
    (g : Fin num_points → ℝ) : (Fin num_points → ℝ) × (Fin num_points → ℝ) :=
  let x := linspace01 num_points
  (x, fun i => Real.sin (2 * Real.pi * x i) + noise_level * g i)

/-- Embedding of `np.vander(x, m, increasing=True)`: the `N × m` matrix whose
column `j` holds `x ^ j`. -/
def vander {N : ℕ} (x : Fin N → ℝ) (m : ℕ) : Matrix (Fin N) (Fin m) ℝ :=
  Matrix.of fun i j => x i ^ (j : ℕ)

/-- The four Moore–Penrose equations over ℝ (where conjugate transpose is
plain transpose).  `np.linalg.pinv A` is the unique `B` satisfying them. -/
def IsMoorePenrose {n : ℕ} (A B : Matrix (Fin n) (Fin n) ℝ) : Prop :=
  A * B * A = A ∧ B * A * B = B ∧ (A * B)ᵀ = A * B ∧ (B * A)ᵀ = B * A

/-- Embedding of `np.linalg.pinv` on the square real matrices it is applied
to in `main.py`: the Moore–Penrose pseudoinverse, specified by the four
Penrose equations (below we prove a matrix satisfying them exists for every
symmetric real matrix, which covers the Gram matrix `XᵀX` the code feeds it,
and that it is unique). -/
noncomputable def pinv {n : ℕ} (A : Matrix (Fin n) (Fin n) ℝ) :
    Matrix (Fin n) (Fin n) ℝ :=
  letI := Classical.propDecidable (∃ B, IsMoorePenrose A B)
  if h : ∃ B, IsMoorePenrose A B then h.choose else 0

/-- Embedding of `polynomial_regression(x, y, degree)` from `src/main.py`:
`X = np.vander(x, degree + 1, increasing=True)` followed by
`w_star = np.linalg.pinv(X.T @ X) @ X.T @ y` (Python's `@` associates to the
left). -/
noncomputable def polynomial_regression {N : ℕ} (x y : Fin N → ℝ) (degree : ℕ) :
    Fin (degree + 1) → ℝ :=
  let X := vander x (degree + 1)
  (pinv (Xᵀ * X) * Xᵀ) *ᵥ y

/-- The fitted coefficient vector of `polynomial_regression`, written for an
arbitrary design matrix `X`. -/
noncomputable def lsFit {N k : ℕ} (X : Matrix (Fin N) (Fin k) ℝ) (y : Fin N → ℝ) :
    Fin k → ℝ :=
  (pinv (Xᵀ * X) * Xᵀ) *ᵥ y

/-- Shape discriminator for `NpVal`: `true` exactly on 1-d arrays. -/
def NpVal.isArr : NpVal → Bool
  | .scalar _ => false
  | .arr _ => true

/-- Value of the polynomial with coefficient vector `w` at the point `v`
(coefficient of `x^i` at index `i`), the mathematical reading of the
Evaluator. -/
def evalP {k : ℕ} (w : Fin k → ℝ) (v : ℝ) : ℝ :=
  ∑ j, w j * v ^ (j : ℕ)

/-- Sum of squared residuals of the degree-`k - 1` coefficient vector `w`
on the sample `(x, y)`: `Σ_i (y i − Σ_j w j * (x i)^j)²`. -/
def sumSqErr {N k : ℕ} (x y : Fin N → ℝ) (w : Fin k → ℝ) : ℝ :=
  ∑ i, (y i - evalP w (x i)) ^ 2

/-- The training-set error pipeline of the driver in `main.py`:
`w_star = polynomial_regression(x, y, degree)`;
`y_pred = polynomial(x, w_star)`;
`mean_squared_error(y, y_pred)`. -/
noncomputable def fit_predict_error {N : ℕ} (x y : Fin N → ℝ) (degree : ℕ) : ℝ :=
  mean_squared_error (NpVal.arr (List.ofFn y))
    (polynomial (NpVal.arr (List.ofFn x)) (List.ofFn (polynomial_regression x y degree)))

/-! ### The Moore–Penrose equations have a solution for symmetric matrices -/

/-- Every real symmetric matrix has a Moore–Penrose pseudoinverse, obtained
from the spectral decomposition by inverting the nonzero eigenvalues. -/
theorem exists_isMoorePenrose {n : ℕ} {A : Matrix (Fin n) (Fin n) ℝ}
    (hA : A.IsHermitian) : ∃ B, IsMoorePenrose A B := by
  classical
  set U : Matrix (Fin n) (Fin n) ℝ := (hA.eigenvectorUnitary : Matrix (Fin n) (Fin n) ℝ)
    with hUdef
  set e : Fin n → ℝ := hA.eigenvalues with hedef
  have hVU : Uᵀ * U = 1 := by
    have h := (Matrix.mem_unitaryGroup_iff').mp hA.eigenvectorUnitary.2
    rwa [Matrix.star_eq_conjTranspose, Matrix.conjTranspose_eq_transpose_of_trivial] at h
  have hspec : A = U * Matrix.diagonal e * Uᵀ := by
    have h := hA.spectral_theorem
    rwa [RCLike.ofReal_real_eq_id, Function.id_comp, Matrix.star_eq_conjTranspose,
      Matrix.conjTranspose_eq_transpose_of_trivial] at h
  set e' : Fin n → ℝ := fun i => (e i)⁻¹ with he'def
  have key : ∀ f g h : Fin n → ℝ, (∀ i, f i * g i = h i) →
      (U * Matrix.diagonal f * Uᵀ) * (U * Matrix.diagonal g * Uᵀ)
        = U * Matrix.diagonal h * Uᵀ := by
    intro f g h hfg
    have hd : Matrix.diagonal f * Matrix.diagonal g = Matrix.diagonal h := by
      rw [Matrix.diagonal_mul_diagonal]
      exact congrArg Matrix.diagonal (funext hfg)
    calc (U * Matrix.diagonal f * Uᵀ) * (U * Matrix.diagonal g * Uᵀ)
        = U * (Matrix.diagonal f * ((Uᵀ * U) * (Matrix.diagonal g * Uᵀ))) := by
          simp only [Matrix.mul_assoc]
      _ = U * (Matrix.diagonal f * (Matrix.diagonal g * Uᵀ)) := by
          rw [hVU, Matrix.one_mul]
      _ = U * (Matrix.diagonal f * Matrix.diagonal g) * Uᵀ := by
          simp only [Matrix.mul_assoc]
      _ = U * Matrix.diagonal h * Uᵀ := by rw [hd]
  have keyT : ∀ f : Fin n → ℝ,
      (U * Matrix.diagonal f * Uᵀ)ᵀ = U * Matrix.diagonal f * Uᵀ := by
    intro f
    rw [Matrix.transpose_mul, Matrix.transpose_mul, Matrix.transpose_transpose,
      Matrix.diagonal_transpose, Matrix.mul_assoc]
  set p : Fin n → ℝ := fun i => e i * e' i with hpdef
  set q : Fin n → ℝ := fun i => e' i * e i with hqdef
  have hAB : A * (U * Matrix.diagonal e' * Uᵀ) = U * Matrix.diagonal p * Uᵀ := by
    rw [hspec]; exact key e e' p fun i => rfl
  have hBA : (U * Matrix.diagonal e' * Uᵀ) * A = U * Matrix.diagonal q * Uᵀ := by
    rw [hspec]; exact key e' e q fun i => rfl
  refine ⟨U * Matrix.diagonal e' * Uᵀ, ?_, ?_, ?_, ?_⟩
  · calc A * (U * Matrix.diagonal e' * Uᵀ) * A
        = (U * Matrix.diagonal p * Uᵀ) * A := by rw [hAB]
      _ = (U * Matrix.diagonal p * Uᵀ) * (U * Matrix.diagonal e * Uᵀ) := by rw [← hspec]
      _ = U * Matrix.diagonal e * Uᵀ := by
          refine key p e e fun i => ?_
          rcases eq_or_ne (e i) 0 with h | h
          · simp [hpdef, he'def, h]
          · simp [hpdef, he'def, mul_inv_cancel₀ h]
      _ = A := hspec.symm
  · calc (U * Matrix.diagonal e' * Uᵀ) * A * (U * Matrix.diagonal e' * Uᵀ)
        = (U * Matrix.diagonal q * Uᵀ) * (U * Matrix.diagonal e' * Uᵀ) := by rw [hBA]
      _ = U * Matrix.diagonal e' * Uᵀ := by
          refine key q e' e' fun i => ?_
          rcases eq_or_ne (e i) 0 with h | h
          · simp [hqdef, he'def, h]
          · simp [hqdef, he'def, inv_mul_cancel₀ h]
  · rw [hAB, keyT]
  · rw [hBA, keyT]

/-- The matrix `pinv A` is a genuine Moore–Penrose pseudoinverse whenever `A`
is symmetric. -/
theorem pinv_isMoorePenrose {n : ℕ} {A : Matrix (Fin n) (Fin n) ℝ}
    (hA : A.IsHermitian) : IsMoorePenrose A (pinv A) := by
  have h : ∃ B, IsMoorePenrose A B := exists_isMoorePenrose hA
  unfold pinv
  rw [dif_pos h]
  exact h.choose_spec

/-- The Gram matrix `Xᵀ * X` is symmetric. -/
theorem gram_isHermitian {N k : ℕ} (X : Matrix (Fin N) (Fin k) ℝ) :
    (Xᵀ * X).IsHermitian := by
  have h := Matrix.isHermitian_transpose_mul_self X
  rwa [Matrix.conjTranspose_eq_transpose_of_trivial] at h

/-! ### Least-squares properties of the fitted coefficients -/

theorem polynomial_regression_eq_lsFit {N : ℕ} (x y : Fin N → ℝ) (degree : ℕ) :
    polynomial_regression x y degree = lsFit (vander x (degree + 1)) y := rfl

/-- `Xᵀ y` lies in the column space of the Gram matrix `XᵀX` (over ℝ the two
column spaces coincide, by a rank argument). -/
theorem exists_gram_solution {N k : ℕ} (X : Matrix (Fin N) (Fin k) ℝ) (y : Fin N → ℝ) :
    ∃ u, (Xᵀ * X) *ᵥ u = Xᵀ *ᵥ y := by
  have hsub : LinearMap.range (Xᵀ * X).mulVecLin ≤ LinearMap.range Xᵀ.mulVecLin := by
    rintro v ⟨u, rfl⟩
    exact ⟨X *ᵥ u, by simp [Matrix.mulVecLin_apply, Matrix.mulVec_mulVec]⟩
  have heq : LinearMap.range (Xᵀ * X).mulVecLin = LinearMap.range Xᵀ.mulVecLin := by
    apply Submodule.eq_of_le_of_finrank_le hsub
    have h1 : (Xᵀ * X).rank = X.rank := Matrix.rank_transpose_mul_self X
    have h2 : Xᵀ.rank = X.rank := Matrix.rank_transpose X
    exact le_of_eq (h2.trans h1.symm)
  have hy : Xᵀ *ᵥ y ∈ LinearMap.range Xᵀ.mulVecLin := ⟨y, rfl⟩
  rw [← heq] at hy
  obtain ⟨u, hu⟩ := hy
  exact ⟨u, hu⟩

/-- The fitted coefficients satisfy the normal equations. -/
theorem lsFit_normal {N k : ℕ} (X : Matrix (Fin N) (Fin k) ℝ) (y : Fin N → ℝ) :
    (Xᵀ * X) *ᵥ lsFit X y = Xᵀ *ᵥ y := by
  obtain ⟨u, hu⟩ := exists_gram_solution X y
  obtain ⟨hABA, _, _, _⟩ := pinv_isMoorePenrose (gram_isHermitian X)
  calc (Xᵀ * X) *ᵥ lsFit X y
      = ((Xᵀ * X) * pinv (Xᵀ * X) * Xᵀ) *ᵥ y := by
        rw [lsFit, Matrix.mulVec_mulVec, ← Matrix.mul_assoc]
    _ = ((Xᵀ * X) * pinv (Xᵀ * X)) *ᵥ (Xᵀ *ᵥ y) := by
        exact (Matrix.mulVec_mulVec y ((Xᵀ * X) * pinv (Xᵀ * X)) Xᵀ).symm
    _ = ((Xᵀ * X) * pinv (Xᵀ * X)) *ᵥ ((Xᵀ * X) *ᵥ u) := by rw [hu]
    _ = ((Xᵀ * X) * pinv (Xᵀ * X) * (Xᵀ * X)) *ᵥ u := by
        exact Matrix.mulVec_mulVec u ((Xᵀ * X) * pinv (Xᵀ * X)) (Xᵀ * X)
    _ = (Xᵀ * X) *ᵥ u := by rw [hABA]
    _ = Xᵀ *ᵥ y := hu

/-- The residual of the fitted coefficients is orthogonal to the column
space of `X`. -/
theorem lsFit_residual_orth {N k : ℕ} (X : Matrix (Fin N) (Fin k) ℝ) (y : Fin N → ℝ) :
    Xᵀ *ᵥ (y - X *ᵥ lsFit X y) = 0 := by
  rw [Matrix.mulVec_sub, Matrix.mulVec_mulVec, lsFit_normal, sub_self]

theorem dot_self_nonneg {m : ℕ} (v : Fin m → ℝ) : 0 ≤ v ⬝ᵥ v :=
  Finset.sum_nonneg fun i _ => mul_self_nonneg (v i)

theorem dot_add_expand {m : ℕ} (r s : Fin m → ℝ) :
    (r + s) ⬝ᵥ (r + s) = r ⬝ᵥ r + 2 * (r ⬝ᵥ s) + s ⬝ᵥ s := by
  rw [Matrix.add_dotProduct, Matrix.dotProduct_add, Matrix.dotProduct_add,
    Matrix.dotProduct_comm s r]
  ring

theorem lsFit_decomp {N k : ℕ} (X : Matrix (Fin N) (Fin k) ℝ) (y : Fin N → ℝ)
    (w : Fin k → ℝ) :
    y - X *ᵥ w = (y - X *ᵥ lsFit X y) + X *ᵥ (lsFit X y - w) := by
  rw [Matrix.mulVec_sub, sub_add_sub_cancel]

theorem lsFit_cross_orth {N k : ℕ} (X : Matrix (Fin N) (Fin k) ℝ) (y : Fin N → ℝ)
    (w : Fin k → ℝ) :
    (y - X *ᵥ lsFit X y) ⬝ᵥ (X *ᵥ (lsFit X y - w)) = 0 := by
  rw [Matrix.dotProduct_mulVec, ← Matrix.mulVec_transpose, lsFit_residual_orth,
    Matrix.zero_dotProduct]

/-- The fitted coefficients minimize the sum of squared residuals. -/
theorem lsFit_min {N k : ℕ} (X : Matrix (Fin N) (Fin k) ℝ) (y : Fin N → ℝ)
    (w : Fin k → ℝ) :
    (y - X *ᵥ lsFit X y) ⬝ᵥ (y - X *ᵥ lsFit X y) ≤ (y - X *ᵥ w) ⬝ᵥ (y - X *ᵥ w) := by
  rw [lsFit_decomp X y w, dot_add_expand, lsFit_cross_orth]
  have h := dot_self_nonneg (X *ᵥ (lsFit X y - w))
  linarith

/-- Any coefficient vector achieving the minimal residual predicts the same
values at the sample points as the fitted one. -/
theorem lsFit_eq_of_min {N k : ℕ} (X : Matrix (Fin N) (Fin k) ℝ) (y : Fin N → ℝ)
    (w : Fin k → ℝ)
    (h : (y - X *ᵥ w) ⬝ᵥ (y - X *ᵥ w) = (y - X *ᵥ lsFit X y) ⬝ᵥ (y - X *ᵥ lsFit X y)) :
    X *ᵥ w = X *ᵥ lsFit X y := by
  rw [lsFit_decomp X y w, dot_add_expand, lsFit_cross_orth] at h
  have hs : (X *ᵥ (lsFit X y - w)) ⬝ᵥ (X *ᵥ (lsFit X y - w)) = 0 := by linarith
  have hz := Matrix.dotProduct_self_eq_zero.mp hs
  rw [Matrix.mulVec_sub] at hz
  exact (sub_eq_zero.mp hz).symm

/-- Among coefficient vectors predicting the same values at the sample points
as the fitted one, the fitted one has least Euclidean norm. -/
theorem lsFit_min_norm {N k : ℕ} (X : Matrix (Fin N) (Fin k) ℝ) (y : Fin N → ℝ)
    (w : Fin k → ℝ) (h : X *ᵥ w = X *ᵥ lsFit X y) :
    lsFit X y ⬝ᵥ lsFit X y ≤ w ⬝ᵥ w := by
  obtain ⟨_, hBAB, _, hBAt⟩ := pinv_isMoorePenrose (gram_isHermitian X)
  set f := lsFit X y with hf
  have hAT : (Xᵀ * X)ᵀ = Xᵀ * X := by
    rw [Matrix.transpose_mul, Matrix.transpose_transpose]
  have hfdef : f = (pinv (Xᵀ * X) * Xᵀ) *ᵥ y := rfl
  have hfr : f = (Xᵀ * X) *ᵥ ((pinv (Xᵀ * X))ᵀ *ᵥ f) := by
    have h1 : f = (pinv (Xᵀ * X) * (Xᵀ * X)) *ᵥ f := by
      calc f = (pinv (Xᵀ * X) * Xᵀ) *ᵥ y := hfdef
        _ = ((pinv (Xᵀ * X) * (Xᵀ * X) * pinv (Xᵀ * X)) * Xᵀ) *ᵥ y := by rw [hBAB]
        _ = (pinv (Xᵀ * X) * (Xᵀ * X)) *ᵥ ((pinv (Xᵀ * X) * Xᵀ) *ᵥ y) := by
            rw [Matrix.mulVec_mulVec, Matrix.mul_assoc]
        _ = (pinv (Xᵀ * X) * (Xᵀ * X)) *ᵥ f := by rw [← hfdef]
    calc f = (pinv (Xᵀ * X) * (Xᵀ * X)) *ᵥ f := h1
      _ = (pinv (Xᵀ * X) * (Xᵀ * X))ᵀ *ᵥ f := by rw [hBAt]
      _ = ((Xᵀ * X)ᵀ * (pinv (Xᵀ * X))ᵀ) *ᵥ f := by rw [Matrix.transpose_mul]
      _ = (Xᵀ * X) *ᵥ ((pinv (Xᵀ * X))ᵀ *ᵥ f) := by
          rw [hAT, ← Matrix.mulVec_mulVec]
  have hXd : X *ᵥ (w - f) = 0 := by rw [Matrix.mulVec_sub, h, sub_self]
  have hAd : (Xᵀ * X) *ᵥ (w - f) = 0 := by
    rw [← Matrix.mulVec_mulVec, hXd, Matrix.mulVec_zero]
  have horth : f ⬝ᵥ (w - f) = 0 := by
    calc f ⬝ᵥ (w - f) = (w - f) ⬝ᵥ f := Matrix.dotProduct_comm _ _
      _ = (w - f) ⬝ᵥ ((Xᵀ * X) *ᵥ ((pinv (Xᵀ * X))ᵀ *ᵥ f)) := by rw [← hfr]
      _ = ((Xᵀ * X) *ᵥ (w - f)) ⬝ᵥ ((pinv (Xᵀ * X))ᵀ *ᵥ f) := by
          rw [Matrix.dotProduct_mulVec, ← Matrix.mulVec_transpose, hAT]
      _ = 0 := by rw [hAd, Matrix.zero_dotProduct]
  have hw : w = f + (w - f) := by abel
  calc f ⬝ᵥ f ≤ f ⬝ᵥ f + (w - f) ⬝ᵥ (w - f) := by
        have h2 := dot_self_nonneg (w - f)
        linarith
    _ = f ⬝ᵥ f + 2 * (f ⬝ᵥ (w - f)) + (w - f) ⬝ᵥ (w - f) := by rw [horth]; ring
    _ = (f + (w - f)) ⬝ᵥ (f + (w - f)) := (dot_add_expand _ _).symm
    _ = w ⬝ᵥ w := by rw [← hw]

/-! ### Evaluator and scorer bridge lemmas -/

theorem npAdd_map_map (l : List ℝ) (F G : ℝ → ℝ) :
    npAdd (NpVal.arr (l.map F)) (NpVal.arr (l.map G))
      = NpVal.arr (l.map fun v => F v + G v) := by
  show NpVal.arr (List.zipWith (· + ·) (l.map F) (l.map G)) = _
  rw [List.zipWith_map, List.zipWith_same]

theorem foldl_npAdd_scalar (a : ℝ) (t : ℕ → ℝ) (n : ℕ) :
    (((List.range n).map fun i => NpVal.scalar (t i)).foldl npAdd (NpVal.scalar a))
      = NpVal.scalar (a + ∑ i ∈ Finset.range n, t i) := by
  induction n with
  | zero => simp
  | succ n ih =>
      rw [List.range_succ, List.map_append, List.foldl_append, ih]
      simp [npAdd, Finset.sum_range_succ, add_assoc]

theorem foldl_npAdd_arr (l : List ℝ) (h : ℝ → ℝ) (g : ℕ → ℝ → ℝ) (n : ℕ) :
    (((List.range n).map fun i => NpVal.arr (l.map (g i))).foldl npAdd
        (NpVal.arr (l.map h)))
      = NpVal.arr (l.map fun v => h v + ∑ i ∈ Finset.range n, g i v) := by
  induction n with
  | zero => simp
  | succ n ih =>
      rw [List.range_succ, List.map_append, List.foldl_append, ih]
      simp only [List.map_cons, List.map_nil, List.foldl_cons, List.foldl_nil]
      rw [npAdd_map_map]
      refine congrArg NpVal.arr (List.map_congr_left fun v _ => ?_)
      rw [Finset.sum_range_succ, add_assoc]

/-- The Evaluator on a scalar input returns the scalar `Σ w[i]·x^i`. -/
theorem polynomial_scalar (v : ℝ) (w : List ℝ) :
    polynomial (NpVal.scalar v) w
      = NpVal.scalar (∑ i ∈ Finset.range w.length, w.getD i 0 * v ^ i) := by
  unfold polynomial
  have hterm : (fun i => npMul (NpVal.scalar (w.getD i 0)) (npPow (NpVal.scalar v) i))
      = fun i => NpVal.scalar (w.getD i 0 * v ^ i) := rfl
  rw [hterm, foldl_npAdd_scalar, zero_add]

/-- The Evaluator on an array input with nonempty coefficients maps
`Σ w[i]·x^i` over the array. -/
theorem polynomial_arr (l : List ℝ) (w : List ℝ) (hw : w ≠ []) :
    polynomial (NpVal.arr l) w
      = NpVal.arr (l.map fun v => ∑ i ∈ Finset.range w.length, w.getD i 0 * v ^ i) := by
  obtain ⟨c, ws, rfl⟩ := List.exists_cons_of_ne_nil hw
  unfold polynomial
  have hterm : (fun i => npMul (NpVal.scalar ((c :: ws).getD i 0)) (npPow (NpVal.arr l) i))
      = fun i => NpVal.arr (l.map fun v => (c :: ws).getD i 0 * v ^ i) := by
    funext i
    show NpVal.arr ((l.map fun a => a ^ i).map fun b => (c :: ws).getD i 0 * b) = _
    rw [List.map_map]
    rfl
  rw [hterm, List.length_cons, List.range_succ_eq_map, List.map_cons, List.foldl_cons,
    List.map_map]
  have hinit : npAdd (NpVal.scalar 0)
        (NpVal.arr (l.map fun v => (c :: ws).getD 0 0 * v ^ 0))
      = NpVal.arr (l.map fun v => 0 + (c :: ws).getD 0 0 * v ^ 0) := by
    show NpVal.arr ((l.map fun v => (c :: ws).getD 0 0 * v ^ 0).map fun b => 0 + b) = _
    rw [List.map_map]
    rfl
  rw [hinit]
  simp only [Function.comp_def]
  rw [foldl_npAdd_arr l _ (fun i v => (c :: ws).getD (i + 1) 0 * v ^ (i + 1)) ws.length]
  refine congrArg NpVal.arr (List.map_congr_left fun v _ => ?_)
  rw [Finset.sum_range_succ']
  simp only [List.getD_cons_succ, List.getD_cons_zero]
  ring

/-- With an empty coefficient list the Evaluator returns the scalar `0`
whatever the shape of `x` (Python's `sum` of an empty generator). -/
theorem polynomial_nil (x : NpVal) : polynomial x [] = NpVal.scalar 0 := rfl

/-- The Scorer on two arrays is the half-sum of elementwise squared
differences. -/
theorem mse_arr (ys ps : List ℝ) :
    mean_squared_error (NpVal.arr ys) (NpVal.arr ps)
      = (List.zipWith (fun a b => (a - b) ^ 2) ys ps).sum / 2 := by
  unfold mean_squared_error
  show (List.map (fun a => a ^ 2) (List.zipWith (· - ·) ys ps)).sum / 2 = _
  rw [List.map_zipWith]

/-- Index form of the half-sum of squared differences. -/
theorem zipWith_sq_sum (ys : List ℝ) : ∀ ps : List ℝ, ys.length = ps.length →
    (List.zipWith (fun a b => (a - b) ^ 2) ys ps).sum
      = ∑ i ∈ Finset.range ys.length, (ys.getD i 0 - ps.getD i 0) ^ 2 := by
  induction ys with
  | nil => intro ps h; simp
  | cons a ys ih =>
      intro ps h
      cases ps with
      | nil => simp at h
      | cons b ps =>
          simp only [List.zipWith_cons_cons, List.sum_cons, List.length_cons]
          rw [Finset.sum_range_succ', ih ps (by simpa using h)]
          simp only [List.getD_cons_succ, List.getD_cons_zero]
          ring

theorem zipWith_sq_ofFn {N : ℕ} (y p : Fin N → ℝ) :
    List.zipWith (fun a b => (a - b) ^ 2) (List.ofFn y) (List.ofFn p)
      = List.ofFn fun i => (y i - p i) ^ 2 := by
  induction N with
  | zero => simp
  | succ N ih =>
      rw [List.ofFn_succ, List.ofFn_succ, List.ofFn_succ, List.zipWith_cons_cons, ih]

/-- The Scorer on two arrays of the same known length `N`. -/
theorem mse_ofFn {N : ℕ} (y p : Fin N → ℝ) :
    mean_squared_error (NpVal.arr (List.ofFn y)) (NpVal.arr (List.ofFn p))
      = (∑ i, (y i - p i) ^ 2) / 2 := by
  rw [mse_arr, zipWith_sq_ofFn, List.sum_ofFn]

theorem mulVec_vander_apply {N k : ℕ} (x : Fin N → ℝ) (w : Fin k → ℝ) (i : Fin N) :
    (vander x k *ᵥ w) i = evalP w (x i) := by
  unfold vander evalP Matrix.mulVec Matrix.dotProduct
  apply Finset.sum_congr rfl
  intro j _
  simp only [Matrix.of_apply]
  ring

theorem sumSqErr_eq_dot {N k : ℕ} (x y : Fin N → ℝ) (w : Fin k → ℝ) :
    sumSqErr x y w = (y - vander x k *ᵥ w) ⬝ᵥ (y - vander x k *ᵥ w) := by
  unfold sumSqErr Matrix.dotProduct
  apply Finset.sum_congr rfl
  intro i _
  rw [Pi.sub_apply, mulVec_vander_apply]
  ring

/-- Reading `Σ w[i]·v^i` off the list `List.ofFn w` gives `evalP w v`. -/
theorem ofFn_poly_sum {k : ℕ} (w : Fin k → ℝ) (v : ℝ) :
    (∑ i ∈ Finset.range (List.ofFn w).length, (List.ofFn w).getD i 0 * v ^ i)
      = evalP w v := by
  rw [List.length_ofFn]
  unfold evalP
  rw [← Fin.sum_univ_eq_sum_range (fun i => (List.ofFn w).getD i 0 * v ^ i) k]
  apply Finset.sum_congr rfl
  intro j _
  congr 1
  rw [List.getD_eq_getElem _ _ (by simp), List.getElem_ofFn]

/-- The driver's error at a given degree is half the sum of squared
residuals of the fitted coefficients. -/
theorem fit_predict_error_eq {N : ℕ} (x y : Fin N → ℝ) (d : ℕ) :
    fit_predict_error x y d = sumSqErr x y (polynomial_regression x y d) / 2 := by
  unfold fit_predict_error
  have hwnil : List.ofFn (polynomial_regression x y d) ≠ [] := by
    intro hcon
    have hlen := congrArg List.length hcon
    simp at hlen
  rw [polynomial_arr _ _ hwnil]
  have hF : (fun v => ∑ i ∈ Finset.range (List.ofFn (polynomial_regression x y d)).length,
        (List.ofFn (polynomial_regression x y d)).getD i 0 * v ^ i)
      = fun v => evalP (polynomial_regression x y d) v := by
    funext v
    exact ofFn_poly_sum _ v
  rw [hF, List.map_ofFn, mse_ofFn]
  rfl

/-- The fitted coefficients minimize `sumSqErr` (shared consequence of
`lsFit_min`, stated directly for `polynomial_regression`). -/
theorem fit_sumSqErr_le {N D : ℕ} (x y : Fin N → ℝ) (w : Fin (D + 1) → ℝ) :
    sumSqErr x y (polynomial_regression x y D) ≤ sumSqErr x y w := by
  rw [polynomial_regression_eq_lsFit, sumSqErr_eq_dot, sumSqErr_eq_dot]
  exact lsFit_min _ y w

/-! ### Claim theorems -/

/-- C1: for every pair of equal-length real sequences `x`, `y` of length `N`
and every degree `D`, the Fitter (whose definition is
`w* = pinv(XᵀX)·Xᵀ·y` with `X` the `N×(D+1)` design matrix of increasing
powers) returns a coefficient vector of length `D + 1` that minimizes the
sum of squared residuals over all degree-`D` coefficient vectors, and among
all vectors attaining the minimal residual it has least Euclidean norm (the
least-norm tie-break of the pseudoinverse in the underdetermined case). -/
theorem fitter_least_squares (N D : ℕ) (x y : Fin N → ℝ) :
    (List.ofFn (polynomial_regression x y D)).length = D + 1 ∧
    (∀ w : Fin (D + 1) → ℝ,
      sumSqErr x y (polynomial_regression x y D) ≤ sumSqErr x y w) ∧
    (∀ w : Fin (D + 1) → ℝ,
      sumSqErr x y w = sumSqErr x y (polynomial_regression x y D) →
      polynomial_regression x y D ⬝ᵥ polynomial_regression x y D ≤ w ⬝ᵥ w) := by
  refine ⟨by simp, fun w => fit_sumSqErr_le x y w, ?_⟩
  · intro w h
    rw [polynomial_regression_eq_lsFit] at h ⊢
    rw [sumSqErr_eq_dot, sumSqErr_eq_dot] at h
    exact lsFit_min_norm _ y w (lsFit_eq_of_min _ y w h)

/-- Witness for C1 at the concrete sample `x = [2]`, `y = [3]`, degree 0. -/
theorem fitter_least_squares_witness :
    sumSqErr ![(2:ℝ)] ![(3:ℝ)] (polynomial_regression ![(2:ℝ)] ![(3:ℝ)] 0)
        ≤ sumSqErr ![(2:ℝ)] ![(3:ℝ)] ![(0:ℝ)] ∧
    polynomial_regression ![(2:ℝ)] ![(3:ℝ)] 0 ⬝ᵥ polynomial_regression ![(2:ℝ)] ![(3:ℝ)] 0
        ≤ polynomial_regression ![(2:ℝ)] ![(3:ℝ)] 0 ⬝ᵥ polynomial_regression ![(2:ℝ)] ![(3:ℝ)] 0 :=
  ⟨(fitter_least_squares 1 0 ![(2:ℝ)] ![(3:ℝ)]).2.1 ![(0:ℝ)],
   (fitter_least_squares 1 0 ![(2:ℝ)] ![(3:ℝ)]).2.2
     (polynomial_regression ![(2:ℝ)] ![(3:ℝ)] 0) rfl⟩

/-- C2: the Scorer returns half the sum of squared differences (no division
by the length `N`), and it is not the mean: on a concrete equal-length input
it differs from (sum of squared differences)/N. -/
theorem scorer_half_sum_squares :
    (∀ ys ps : List ℝ, ys.length = ps.length →
      mean_squared_error (NpVal.arr ys) (NpVal.arr ps)
        = (∑ i ∈ Finset.range ys.length, (ys.getD i 0 - ps.getD i 0) ^ 2) / 2) ∧
    (∃ ys ps : List ℝ, ys.length = ps.length ∧
      mean_squared_error (NpVal.arr ys) (NpVal.arr ps)
        ≠ (∑ i ∈ Finset.range ys.length, (ys.getD i 0 - ps.getD i 0) ^ 2) / ys.length) := by
  constructor
  · intro ys ps h
    rw [mse_arr, zipWith_sq_sum ys ps h]
  · refine ⟨[0, 0, 0], [1, 1, 1], rfl, ?_⟩
    rw [mse_arr]
    norm_num [List.zipWith_cons_cons, Finset.sum_range_succ]

/-- Witness for C2 at `y = [1, 2]`, `y_pred = [0, 5]`. -/
theorem scorer_half_sum_squares_witness :
    mean_squared_error (NpVal.arr [(1:ℝ), 2]) (NpVal.arr [(0:ℝ), 5])
      = (∑ i ∈ Finset.range ([(1:ℝ), 2]).length,
          (([(1:ℝ), 2]).getD i 0 - ([(0:ℝ), 5]).getD i 0) ^ 2) / 2 :=
  scorer_half_sum_squares.1 [(1:ℝ), 2] [(0:ℝ), 5] rfl

/-- C3: the Evaluator computes `Σ w[i]·x^i` for `i = 0..len w − 1`; on a
scalar input it returns a scalar, and on an array input with nonempty `w` it
returns an array of the same shape (the values mapped over `x`). -/
theorem evaluator_power_sum (v : ℝ) (l : List ℝ) (w : List ℝ) (hw : w ≠ []) :
    polynomial (NpVal.scalar v) w
        = NpVal.scalar (∑ i ∈ Finset.range w.length, w.getD i 0 * v ^ i) ∧
    polynomial (NpVal.arr l) w
        = NpVal.arr (l.map fun u => ∑ i ∈ Finset.range w.length, w.getD i 0 * u ^ i) :=
  ⟨polynomial_scalar v w, polynomial_arr l w hw⟩

/-- Witness for C3 at `x = 2` (scalar), `x = [5, 6]` (array), `w = [3, 4]`. -/
theorem evaluator_power_sum_witness :
    polynomial (NpVal.scalar 2) [(3:ℝ), 4]
        = NpVal.scalar (∑ i ∈ Finset.range ([(3:ℝ), 4]).length,
            ([(3:ℝ), 4]).getD i 0 * (2:ℝ) ^ i) ∧
    polynomial (NpVal.arr [(5:ℝ), 6]) [(3:ℝ), 4]
        = NpVal.arr (([(5:ℝ), 6]).map fun u => ∑ i ∈ Finset.range ([(3:ℝ), 4]).length,
            ([(3:ℝ), 4]).getD i 0 * u ^ i) :=
  evaluator_power_sum 2 [(5:ℝ), 6] [(3:ℝ), 4] (by simp)

/-- C8 (amended): the Scorer is symmetric in its two arguments for all
sequences, equal or not, since each squared difference is symmetric. -/
theorem scorer_symm (ys ps : List ℝ) :
    mean_squared_error (NpVal.arr ys) (NpVal.arr ps)
      = mean_squared_error (NpVal.arr ps) (NpVal.arr ys) := by
  rw [mse_arr, mse_arr,
    List.zipWith_comm_of_comm (fun a b => (a - b) ^ 2) (fun a b => by ring) ys ps]

/-- C8 counterexample: the different singleton sequences `[0]` and `[1]`
give the same score in both orders, refuting "swapping the roles changes the
score unless the sequences are equal". -/
theorem scorer_symm_counterexample :
    mean_squared_error (NpVal.arr [0]) (NpVal.arr [1])
      = mean_squared_error (NpVal.arr [1]) (NpVal.arr [0]) ∧
    List.getD [(0:ℝ)] 0 0 < List.getD [(1:ℝ)] 0 0 := by
  refine ⟨?_, by norm_num⟩
  rw [mse_arr, mse_arr]
  norm_num [List.zipWith_cons_cons]

/-- C9: the Scorer of any sequence against itself is exactly 0. -/
theorem scorer_self_zero (ys : List ℝ) :
    mean_squared_error (NpVal.arr ys) (NpVal.arr ys) = 0 := by
  rw [mse_arr, List.zipWith_same]
  have hmap : (ys.map fun a => (a - a) ^ 2) = ys.map fun _ => 0 :=
    List.map_congr_left fun a _ => by ring
  rw [hmap]
  simp

/-- C10: with an empty coefficient vector the Evaluator returns the scalar
0 regardless of the input — even on array inputs it produces a scalar,
never an array, so shape preservation fails for `w = []`. -/
theorem evaluator_empty_coeffs :
    (∀ x : NpVal, polynomial x [] = NpVal.scalar 0) ∧
    (∀ l : List ℝ, (polynomial (NpVal.arr l) []).isArr = false) :=
  ⟨fun x => polynomial_nil x, fun _ => rfl⟩

/-- C4: with `N = d + 1` pairwise-distinct x values and degree `d = N − 1`,
the fit interpolates exactly (over exact real arithmetic): the Evaluator
returns each training `y i` at `x i`, and the driver's training-set error
is 0. -/
theorem fitter_interpolates (d : ℕ) (x y : Fin (d + 1) → ℝ)
    (hx : Function.Injective x) :
    (∀ i, polynomial (NpVal.scalar (x i)) (List.ofFn (polynomial_regression x y d))
        = NpVal.scalar (y i)) ∧
    fit_predict_error x y d = 0 := by
  have hvand : vander x (d + 1) = Matrix.vandermonde x := rfl
  have hunit : IsUnit (vander x (d + 1)).det := by
    rw [hvand]
    exact isUnit_iff_ne_zero.mpr (Matrix.det_vandermonde_ne_zero_iff.mpr hx)
  have hexact : vander x (d + 1) *ᵥ ((vander x (d + 1))⁻¹ *ᵥ y) = y := by
    rw [Matrix.mulVec_mulVec, Matrix.mul_nonsing_inv _ hunit, Matrix.one_mulVec]
  have hmin := lsFit_min (vander x (d + 1)) y ((vander x (d + 1))⁻¹ *ᵥ y)
  rw [hexact, sub_self, Matrix.zero_dotProduct] at hmin
  have h0 : (y - vander x (d + 1) *ᵥ lsFit (vander x (d + 1)) y) ⬝ᵥ
      (y - vander x (d + 1) *ᵥ lsFit (vander x (d + 1)) y) = 0 :=
    le_antisymm hmin (dot_self_nonneg _)
  have hres : vander x (d + 1) *ᵥ lsFit (vander x (d + 1)) y = y :=
    (sub_eq_zero.mp (Matrix.dotProduct_self_eq_zero.mp h0)).symm
  have heval : ∀ i, evalP (polynomial_regression x y d) (x i) = y i := by
    intro i
    rw [polynomial_regression_eq_lsFit, ← mulVec_vander_apply, hres]
  constructor
  · intro i
    rw [polynomial_scalar, ofFn_poly_sum, heval]
  · rw [fit_predict_error_eq]
    have hs : sumSqErr x y (polynomial_regression x y d) = 0 :=
      Finset.sum_eq_zero fun i _ => by rw [heval]; ring
    rw [hs]
    norm_num

/-- Witness for C4 at the single-point sample `x = [5]`, `y = [7]`,
degree 0. -/
theorem fitter_interpolates_witness :
    polynomial (NpVal.scalar ((![(5:ℝ)]) 0))
        (List.ofFn (polynomial_regression ![(5:ℝ)] ![(7:ℝ)] 0))
      = NpVal.scalar ((![(7:ℝ)]) 0) ∧
    fit_predict_error ![(5:ℝ)] ![(7:ℝ)] 0 = 0 :=
  ⟨(fitter_interpolates 0 ![(5:ℝ)] ![(7:ℝ)] fun a b _ => (Fin.fin_one_eq_zero a).trans (Fin.fin_one_eq_zero b).symm).1 0,
   (fitter_interpolates 0 ![(5:ℝ)] ![(7:ℝ)] fun a b _ => (Fin.fin_one_eq_zero a).trans (Fin.fin_one_eq_zero b).symm).2⟩

/-- C5: on any non-empty sample, fitting with degree 0 returns the single
coefficient equal to the arithmetic mean of `y`. -/
theorem fitter_degree_zero_mean {N : ℕ} (hN : 0 < N) (x y : Fin N → ℝ) :
    polynomial_regression x y 0 = fun _ => (∑ i, y i) / (N : ℝ) := by
  have hNpos : (0:ℝ) < (N:ℝ) := by exact_mod_cast hN
  have hNne : (N:ℝ) ≠ 0 := ne_of_gt hNpos
  set c := polynomial_regression x y 0 with hc
  set S := ∑ i, y i with hS
  set Q := ∑ i, (y i) ^ 2 with hQ
  have hevalc : ∀ (w : Fin 1 → ℝ) (v : ℝ), evalP w v = w 0 := by
    intro w v
    unfold evalP
    rw [Fin.sum_univ_one]
    norm_num
  have hkey : ∀ w : Fin 1 → ℝ, sumSqErr x y w = Q - 2 * w 0 * S + N * (w 0) ^ 2 := by
    intro w
    unfold sumSqErr
    calc (∑ i, (y i - evalP w (x i)) ^ 2)
        = ∑ i, ((y i) ^ 2 - 2 * w 0 * y i + (w 0) ^ 2) :=
          Finset.sum_congr rfl fun i _ => by rw [hevalc]; ring
      _ = Q - 2 * w 0 * S + N * (w 0) ^ 2 := by
          rw [Finset.sum_add_distrib, Finset.sum_sub_distrib, ← Finset.mul_sum,
            Finset.sum_const, Finset.card_univ, Fintype.card_fin, nsmul_eq_mul, hS, hQ]
  have hmin := fit_sumSqErr_le (D := 0) x y (fun _ => S / (N : ℝ))
  simp only [hkey] at hmin
  have hmin' : (N:ℝ) * (Q - 2 * c 0 * S + N * (c 0) ^ 2)
      ≤ (N:ℝ) * (Q - 2 * (S / (N:ℝ)) * S + N * (S / (N:ℝ)) ^ 2) :=
    mul_le_mul_of_nonneg_left hmin hNpos.le
  have hrhs : (N:ℝ) * (Q - 2 * (S / (N:ℝ)) * S + N * (S / (N:ℝ)) ^ 2)
      = (N:ℝ) * Q - S ^ 2 := by
    field_simp
    ring
  rw [hrhs] at hmin'
  have hsq : ((N:ℝ) * c 0 - S) ^ 2 ≤ 0 := by nlinarith [hmin']
  have hz : (N:ℝ) * c 0 - S = 0 :=
    pow_eq_zero_iff two_ne_zero |>.mp (le_antisymm hsq (sq_nonneg _))
  funext j
  rw [Fin.fin_one_eq_zero j, eq_div_iff hNne]
  linarith

/-- Witness for C5 at the sample `x = [0, 1]`, `y = [1, 3]`. -/
theorem fitter_degree_zero_mean_witness :
    polynomial_regression ![(0:ℝ), 1] ![(1:ℝ), 3] 0
      = fun _ => (∑ i, (![(1:ℝ), 3]) i) / ((2:ℕ) : ℝ) :=
  fitter_degree_zero_mean (by norm_num) ![(0:ℝ), 1] ![(1:ℝ), 3]

/-- C6: on any training sample, the degree-9 pipeline error
(Fitter → Evaluator → Scorer at the training points) is at most the
degree-0 pipeline error: the degree-9 fit is chosen among a set of curves
that contains every constant curve. -/
theorem degree9_error_le_degree0 {N : ℕ} (x y : Fin N → ℝ) :
    fit_predict_error x y 9 ≤ fit_predict_error x y 0 := by
  rw [fit_predict_error_eq, fit_predict_error_eq]
  have hpad : ∀ v : ℝ,
      evalP (fun j : Fin 10 =>
        if h : (j : ℕ) < 1 then polynomial_regression x y 0 ⟨j, h⟩ else 0) v
      = evalP (polynomial_regression x y 0) v := by
    intro v
    unfold evalP
    have h1 : (∑ j : Fin 10,
        (if h : (j : ℕ) < 1 then polynomial_regression x y 0 ⟨j, h⟩ else 0) * v ^ (j : ℕ))
        = (if h : ((0 : Fin 10) : ℕ) < 1 then polynomial_regression x y 0 ⟨0, h⟩ else 0)
            * v ^ ((0 : Fin 10) : ℕ) := by
      apply Finset.sum_eq_single
      · intro b _ hb
        have hb' : ¬ ((b : ℕ) < 1) := fun hcon => hb (Fin.ext (by omega))
        rw [dif_neg hb', zero_mul]
      · intro hmem
        exact absurd (Finset.mem_univ _) hmem
    rw [h1, Fin.sum_univ_one]
    norm_num
  have hle := fit_sumSqErr_le x y
    (fun j : Fin 10 => if h : (j : ℕ) < 1 then polynomial_regression x y 0 ⟨j, h⟩ else 0)
  have heq : sumSqErr x y (fun j : Fin 10 =>
      if h : (j : ℕ) < 1 then polynomial_regression x y 0 ⟨j, h⟩ else 0)
      = sumSqErr x y (polynomial_regression x y 0) := by
    unfold sumSqErr
    exact Finset.sum_congr rfl fun i _ => by rw [hpad]
  rw [heq] at hle
  linarith

/-- C7 (amended): with σ = 0 and at least two points, the Sampler returns
`x i = i/(n−1)` — evenly spaced values attaining both endpoints 0 and 1 —
and `y i = sin(2π x i)` exactly, whatever the underlying Gaussian draws. -/
theorem sampler_sigma_zero (n : ℕ) (hn : 2 ≤ n) (g : Fin n → ℝ) :
    (∀ i : Fin n, (generate_noisy_sin_points n 0 g).1 i = (i : ℝ) / ((n : ℝ) - 1)) ∧
    (∃ i : Fin n, (generate_noisy_sin_points n 0 g).1 i = 0) ∧
    (∃ i : Fin n, (generate_noisy_sin_points n 0 g).1 i = 1) ∧
    (∀ i : Fin n, (generate_noisy_sin_points n 0 g).2 i
        = Real.sin (2 * Real.pi * (generate_noisy_sin_points n 0 g).1 i)) := by
  have hne : n ≠ 1 := by omega
  have hx : ∀ i : Fin n,
      (generate_noisy_sin_points n 0 g).1 i = (i : ℝ) / ((n : ℝ) - 1) := by
    intro i
    show linspace01 n i = _
    unfold linspace01
    rw [if_neg hne]
  refine ⟨hx, ⟨⟨0, by omega⟩, by rw [hx]; simp⟩, ⟨⟨n - 1, by omega⟩, ?_⟩, ?_⟩
  · rw [hx]
    have h1 : ((n : ℝ) - 1) ≠ 0 := by
      have h2 : (2 : ℝ) ≤ (n : ℝ) := by exact_mod_cast hn
      linarith
    have h2 : (((⟨n - 1, by omega⟩ : Fin n) : ℕ) : ℝ) = (n : ℝ) - 1 := by
      show (((n - 1 : ℕ)) : ℝ) = (n : ℝ) - 1
      have h3 : (1 : ℕ) ≤ n := by omega
      push_cast [Nat.cast_sub h3]
      ring
    rw [h2, div_self h1]
  · intro i
    show Real.sin (2 * Real.pi * linspace01 n i) + 0 * g i
        = Real.sin (2 * Real.pi * linspace01 n i)
    rw [zero_mul, add_zero]

/-- Witness for C7's amended statement at `n = 2`, zero draws. -/
theorem sampler_sigma_zero_witness :
    (∀ i : Fin 2, (generate_noisy_sin_points 2 0 fun _ => 0).1 i
        = (i : ℝ) / (((2:ℕ) : ℝ) - 1)) ∧
    (∃ i : Fin 2, (generate_noisy_sin_points 2 0 fun _ => 0).1 i = 0) ∧
    (∃ i : Fin 2, (generate_noisy_sin_points 2 0 fun _ => 0).1 i = 1) ∧
    (∀ i : Fin 2, (generate_noisy_sin_points 2 0 fun _ => 0).2 i
        = Real.sin (2 * Real.pi * (generate_noisy_sin_points 2 0 fun _ => 0).1 i)) :=
  sampler_sigma_zero 2 (by norm_num) fun _ => 0

/-- C7 counterexample: at `n = 1` (a positive point count) the Sampler's x
vector is the single value 0, strictly below 1, so it does not span `[0,1]`
inclusive as the claim asserts for every positive `n`. -/
theorem sampler_n_one_counterexample :
    (generate_noisy_sin_points 1 0 fun _ => 0).1 0 = 0 ∧
    (generate_noisy_sin_points 1 0 fun _ => 0).1 0 < 1 := by
  have hx : (generate_noisy_sin_points 1 0 fun _ => 0).1 0 = 0 := by
    show linspace01 1 0 = 0
    unfold linspace01
    rw [if_pos rfl]
  exact ⟨hx, by rw [hx]; norm_num⟩

end MLLib
